import Mathlib

set_option maxHeartbeats 1000000

/-! Formal model of the api-docs-normalizer core: the endpoint extractor
(src/api_normalizer/parser.py) and the schema normalizer
(src/api_normalizer/normalizer.py), embedded as executable Lean functions
over `List Char` and `String`, together with theorems checking the
specification's claims.  Python's whitespace and word-character classes
are modelled over their ASCII portions. -/

/-- Python's whitespace class, as used by `str.strip` and by the regex
class `\s`, restricted to its ASCII portion. -/
def isPySpace (c : Char) : Bool :=
  c == ' ' || c == '\t' || c == '\n' || c == '\r' || c == '\x0b' || c == '\x0c'

/-- Python `str.strip()` on a list of characters: drop whitespace from
both ends. -/
def pyStripList (cs : List Char) : List Char :=
  ((cs.dropWhile isPySpace).reverse.dropWhile isPySpace).reverse

/-- Python `str.strip()`. -/
def pyStrip (s : String) : String :=
  String.mk (pyStripList s.toList)

/-- The alternation `(GET|POST|PUT|DELETE|PATCH|HEAD|OPTIONS)` of
`Parser.HTTP_METHODS`, in source order. -/
def HTTP_METHODS : List String :=
  ["GET", "POST", "PUT", "DELETE", "PATCH", "HEAD", "OPTIONS"]

/-- Case-insensitive prefix test: does the input (first argument) start
with the given uppercase token (second argument)?  This models matching
one alternative of the method alternation under `re.IGNORECASE`. -/
def startsWithCI : List Char → List Char → Bool
  | _, [] => true
  | [], _ :: _ => false
  | c :: cs, t :: ts => c.toUpper == t && startsWithCI cs ts

/-- The method alternation of `ENDPOINT_PATTERN`, anchored at the start
of the input.  Returns the canonical uppercase token; since the token is
pure ASCII letters, this equals the uppercasing of the matched text
(`match.group(1).upper()`).  At most one alternative can match because no
method token is a prefix of another, so committing to the first hit is
equivalent to the regex engine's backtracking alternation. -/
def matchMethod (cs : List Char) : Option String :=
  HTTP_METHODS.findSome? (fun m => if startsWithCI cs m.toList then some m else none)

/-- `ENDPOINT_PATTERN.match` on an (already stripped) line:
`^(GET|...|OPTIONS)\s+(/[^\s]+)` with `re.IGNORECASE`.  Returns the
uppercased method token and the path (group 2): `/` followed by the
maximal nonempty run of non-whitespace characters. -/
def endpointMatchList (cs : List Char) : Option (String × String) :=
  match matchMethod cs with
  | none => none
  | some m =>
    let rest := cs.drop m.toList.length
    let ws := rest.takeWhile isPySpace
    let afterWs := rest.dropWhile isPySpace
    if ws = [] then none
    else
      match afterWs with
      | [] => none
      | c :: tail =>
        if c = '/' then
          let tok := tail.takeWhile (fun x => !(isPySpace x))
          if tok = [] then none else some (m, String.mk ('/' :: tok))
        else none

/-- String-level wrapper for `ENDPOINT_PATTERN.match`. -/
def endpointMatch (s : String) : Option (String × String) :=
  endpointMatchList s.toList

/-- The regex class `\w`, restricted to its ASCII portion:
letters, digits and underscore. -/
def isWordChar (c : Char) : Bool :=
  c.isAlpha || c.isDigit || c == '_'

/-- `PARAM_PATTERN.findall` for the pattern `\x7b(\w+)\x7d`: all
non-overlapping placeholder bodies, left to right.  Scanning every
position is equivalent to `findall`'s skip-past-the-match scanning here,
because a match region contains no `{` after its first character, so no
match can start strictly inside another. -/
def findParams : List Char → List String
  | [] => []
  | c :: rest =>
    if c = '{' then
      let w := rest.takeWhile isWordChar
      if w ≠ [] ∧ (rest.drop w.length).head? = some '}' then
        String.mk w :: findParams rest
      else findParams rest
    else findParams rest

/-- `Parser._extract_path_parameters`. -/
def extractPathParameters (path : String) : List String :=
  findParams path.toList

/-- `Parser.MAX_DESCRIPTION_LINES`. -/
def MAX_DESCRIPTION_LINES : Nat := 3

/-- `Parser._should_stop_description_extraction`: stop on another
endpoint declaration, on a Markdown heading, or on an empty line once
some content has been collected (checked in that order). -/
def shouldStopDescription (line : String) (parts : List String) : Bool :=
  (endpointMatch line).isSome
    || line.toList.head? == some '#'
    || (line == "" && !(parts == []))

/-- The loop body of `Parser._extract_description`: walk the window of
lines, stripping each, stopping per `shouldStopDescription`, collecting
nonempty stripped lines. -/
def extractDescriptionGo : List String → List String → List String
  | [], parts => parts
  | raw :: rest, parts =>
    let line := pyStrip raw
    if shouldStopDescription line parts then parts
    else if line = "" then extractDescriptionGo rest parts
    else extractDescriptionGo rest (parts ++ [line])

/-- Python `" ".join(parts)`. -/
def joinSpace : List String → String
  | [] => ""
  | [x] => x
  | x :: y :: rest => x ++ " " ++ joinSpace (y :: rest)

/-- `Parser._extract_description`: examine the at most
`MAX_DESCRIPTION_LINES` lines after `startIndex`, then join the collected
parts with single spaces and strip. -/
def extractDescription (lines : List String) (startIndex : Nat) : String :=
  let window := (lines.drop (startIndex + 1)).take MAX_DESCRIPTION_LINES
  pyStrip (joinSpace (extractDescriptionGo window []))

/-- The `Endpoint` record from parser.py. -/
structure Endpoint where
  method : String
  path : String
  description : String
  parameters : List String
deriving DecidableEq

/-- Python `str.upper()` (ASCII). -/
def strUpper (s : String) : String :=
  String.mk (s.toList.map Char.toUpper)

/-- Python `str.lower()` (ASCII). -/
def strLower (s : String) : String :=
  String.mk (s.toList.map Char.toLower)

/-- `Endpoint.__init__`: the method is uppercased; description and
parameters default to the empty string and the empty list. -/
def mkEndpoint (method path description : String) (parameters : List String) : Endpoint :=
  ⟨strUpper method, path, description, parameters⟩

/-- `Parser._parse_line_for_endpoint`: try `ENDPOINT_PATTERN` on the
stripped line; on a match build the endpoint record with the parameters
extracted from the path and the description extracted from the following
lines. -/
def parseLineForEndpoint (line : String) (allLines : List String) (lineIndex : Nat) :
    Option Endpoint :=
  match endpointMatch (pyStrip line) with
  | none => none
  | some (m, p) =>
    some (mkEndpoint m p (extractDescription allLines lineIndex) (extractPathParameters p))

/-- Python `content.split(sep)` for a single-character separator. -/
def splitOnChar (sep : Char) : List Char → List (List Char)
  | [] => [[]]
  | c :: rest =>
    if c = sep then [] :: splitOnChar sep rest
    else
      match splitOnChar sep rest with
      | [] => [[c]]
      | h :: t => (c :: h) :: t

/-- `Parser.parse`: split the content on newlines and collect the
endpoints recognized on each line, in order. -/
def parse (content : String) : List Endpoint :=
  let lines := (splitOnChar '\n' content.toList).map String.mk
  lines.enum.filterMap (fun p => parseLineForEndpoint p.2 lines p.1)

/-! Normalizer data model (normalizer.py).  Python dicts with fixed key
sets are modelled as structures (conditionally present keys as `Option`
fields); dicts with dynamic keys are modelled as ordered association
lists with Python-dict insertion semantics. -/

/-- An OpenAPI schema fragment of shape `\x7b"type": ...\x7d`. -/
structure SchemaObj where
  type : String
deriving DecidableEq

/-- One path-parameter object built by
`Normalizer._create_path_parameters`. -/
structure Parameter where
  name : String
  in_ : String
  required : Bool
  schema : SchemaObj
  description : String
deriving DecidableEq

/-- A media-type object inside a response's `content` mapping. -/
structure MediaType where
  schema : SchemaObj
deriving DecidableEq

/-- A response object: `description` plus a content mapping. -/
structure ResponseObj where
  description : String
  content : List (String × MediaType)
deriving DecidableEq

/-- An operation object as assembled by `Normalizer._create_operation`;
`description` and `parameters` are present only conditionally. -/
structure Operation where
  summary : String
  operationId : String
  tags : List String
  description : Option String
  parameters : Option (List Parameter)
  responses : List (String × ResponseObj)
deriving DecidableEq

/-- An entry of the document's top-level `tags` list: an object with
only a `name` field. -/
structure Tag where
  name : String
deriving DecidableEq

/-- The `info` section. -/
structure Info where
  title : String
  version : String
  description : String
deriving DecidableEq

/-- One entry of the `servers` section. -/
structure Server where
  url : String
  description : String
deriving DecidableEq

/-- The schema document returned by `Normalizer.normalize`. -/
structure SchemaDoc where
  openapi : String
  info : Info
  servers : List Server
  tags : List Tag
  paths : List (String × List (String × Operation))
deriving DecidableEq

/-- `Normalizer.OPENAPI_VERSION`. -/
def OPENAPI_VERSION : String := "3.0.0"

/-- `Normalizer.API_VERSION`. -/
def API_VERSION : String := "1.0.0"

/-- `Normalizer.DEFAULT_SERVER_URL`. -/
def DEFAULT_SERVER_URL : String := "https://api.example.com"

/-- `Normalizer.DEFAULT_SERVER_DESCRIPTION`. -/
def DEFAULT_SERVER_DESCRIPTION : String := "Servidor de producción"

/-- `Normalizer.DEFAULT_API_DESCRIPTION`. -/
def DEFAULT_API_DESCRIPTION : String := "API normalizada desde documentación no estructurada"

/-- `Normalizer.SUCCESS_STATUS_CODE`. -/
def SUCCESS_STATUS_CODE : String := "200"

/-- `Normalizer.SUCCESS_DESCRIPTION`. -/
def SUCCESS_DESCRIPTION : String := "Respuesta exitosa"

/-- `Normalizer.DEFAULT_CONTENT_TYPE`. -/
def DEFAULT_CONTENT_TYPE : String := "application/json"

/-- First-match lookup in an association list: Python `d[k]` / `k in d`. -/
def dictGet {α : Type} (k : String) : List (String × α) → Option α
  | [] => none
  | (k', v) :: rest => if k' = k then some v else dictGet k rest

/-- Python dict assignment `d[k] = v`: update in place if the key is
present, else append at the end (dict insertion order). -/
def dictInsert {α : Type} (k : String) (v : α) : List (String × α) → List (String × α)
  | [] => [(k, v)]
  | (k', v') :: rest =>
    if k' = k then (k', v) :: rest else (k', v') :: dictInsert k v rest

/-- `Normalizer._extract_tag_from_path`: split the path on `/`; with
fewer than two segments the tag is `default`; otherwise take segment 1,
cut it at the first `\x7b` (Python `first_segment.split("\x7b")[0]`), and fall
back to `default` if the cut is empty. -/
def extractTagFromPath (path : String) : String :=
  let pathSegments := (splitOnChar '/' path.toList).map String.mk
  if pathSegments.length < 2 then "default"
  else
    let firstSegment := pathSegments.getD 1 ""
    let tag := String.mk ((splitOnChar '{' firstSegment.toList).headD [])
    if tag = "" then "default" else tag

/-- `Normalizer._extract_path_segments`: the `/`-split parts of the path
that are nonempty and do not start with `\x7b`. -/
def extractPathSegments (path : String) : List String :=
  ((splitOnChar '/' path.toList).map String.mk).filter
    (fun seg => !(seg == "") && !(seg.toList.head? == some '{'))

/-- `Normalizer._generate_operation_id`. -/
def generateOperationId (e : Endpoint) : String :=
  let method := strLower e.method
  let pathSegments := extractPathSegments e.path
  if pathSegments = [] then method ++ "_root"
  else
    let resource := pathSegments.headD ""
    if e.parameters ≠ [] then
      method ++ "_" ++ resource ++ "_by_" ++ e.parameters.headD ""
    else if 1 < pathSegments.length then
      method ++ "_" ++ resource ++ "_" ++ pathSegments.getLastD ""
    else method ++ "_" ++ resource

/-- `Normalizer._create_path_parameters`. -/
def createPathParameters (paramNames : List String) : List Parameter :=
  paramNames.map (fun n =>
    { name := n
      in_ := "path"
      required := true
      schema := { type := "string" }
      description := "Identificador del " ++ n })

/-- `Normalizer._create_default_responses`. -/
def createDefaultResponses : List (String × ResponseObj) :=
  [(SUCCESS_STATUS_CODE,
    { description := SUCCESS_DESCRIPTION
      content := [(DEFAULT_CONTENT_TYPE, { schema := { type := "object" } })] })]

/-- `Normalizer._create_operation`.  Python's `endpoint.description or
fallback` is the emptiness test on the description string. -/
def createOperation (e : Endpoint) : Operation :=
  let tag := extractTagFromPath e.path
  let summary := if e.description = "" then e.method ++ " " ++ e.path else e.description
  { summary := summary
    operationId := generateOperationId e
    tags := [tag]
    description := if e.description = "" then none else some e.description
    parameters := if e.parameters = [] then none else some (createPathParameters e.parameters)
    responses := createDefaultResponses }

/-- One iteration of the loop in `Normalizer._build_paths`: fetch (or
create empty) the inner dict for the endpoint's path and assign the
operation under the lowercased method. -/
def buildPathsStep (paths : List (String × List (String × Operation))) (e : Endpoint) :
    List (String × List (String × Operation)) :=
  dictInsert e.path
    (dictInsert (strLower e.method) (createOperation e) ((dictGet e.path paths).getD []))
    paths

/-- `Normalizer._build_paths`. -/
def buildPaths (endpoints : List Endpoint) : List (String × List (String × Operation)) :=
  endpoints.foldl buildPathsStep []

/-- Keep the first occurrence of each element not yet seen; used to model
a Python set built by traversal, and to state first-occurrence key order. -/
def newFirsts (seen : List String) : List String → List String
  | [] => []
  | x :: xs => if x ∈ seen then newFirsts seen xs else x :: newFirsts (x :: seen) xs

/-- The distinct elements of a list, in first-occurrence order. -/
def distinctFirst (l : List String) : List String :=
  newFirsts [] l

/-- `Normalizer._extract_tags`: the set of tags of all endpoints,
modelled as a duplicate-free list (its order is irrelevant: it is only
consumed sorted). -/
def extractTags (endpoints : List Endpoint) : List String :=
  distinctFirst (endpoints.map (fun e => extractTagFromPath e.path))

/-- Python `sorted` on strings: Python compares strings lexicographically
by code points, which is exactly Lean's `≤` on `String`. -/
def sortStrings (l : List String) : List String :=
  List.insertionSort (fun a b => a ≤ b) l

/-- `Normalizer._build_tags_section`. -/
def buildTagsSection (tags : List String) : List Tag :=
  (sortStrings tags).map (fun t => { name := t })

/-- `Normalizer._build_info_section`. -/
def buildInfoSection (title : String) : Info :=
  { title := title, version := API_VERSION, description := DEFAULT_API_DESCRIPTION }

/-- `Normalizer._build_servers_section`. -/
def buildServersSection : List Server :=
  [{ url := DEFAULT_SERVER_URL, description := DEFAULT_SERVER_DESCRIPTION }]

/-- `Normalizer.normalize` (the name is qualified because Mathlib already
has a root-level `normalize`). -/
def Normalizer.normalize (endpoints : List Endpoint) (title : String) : SchemaDoc :=
  { openapi := OPENAPI_VERSION
    info := buildInfoSection title
    servers := buildServersSection
    tags := buildTagsSection (extractTags endpoints)
    paths := buildPaths endpoints }

/-! Helper lemmas. -/

/-- The second component of an `enumFrom` entry is a member of the list. -/
theorem snd_mem_of_mem_enumFrom {α : Type} :
    ∀ (l : List α) (n : Nat) (p : Nat × α), p ∈ l.enumFrom n → p.2 ∈ l := by
  intro l
  induction l with
  | nil => intro n p h; simp [List.enumFrom] at h
  | cons x xs ih =>
    intro n p h
    simp only [List.enumFrom, List.mem_cons] at h
    rcases h with rfl | h
    · exact List.mem_cons_self x xs
    · exact List.mem_cons_of_mem x (ih (n + 1) p h)

/-- The second component of an `enum` entry is a member of the list. -/
theorem snd_mem_of_mem_enum {α : Type} (l : List α) (p : Nat × α) (h : p ∈ l.enum) :
    p.2 ∈ l :=
  snd_mem_of_mem_enumFrom l 0 p h

/-! Claim C3: operationId generation. -/

/-- The claim's `segments`: the `/`-split parts of the path that are
non-empty and do not start with a brace. -/
def specSegments (path : String) : List String :=
  ((splitOnChar '/' path.toList).map String.mk).filter
    (fun s => decide (s ≠ "" ∧ s.toList.head? ≠ some '{'))

/-- The operationId algorithm exactly as the claim words it: empty
segments give root; a first parameter gives `_by_`; several literal
segments give first and last; else the single resource. -/
def specOperationId (method path : String) (parameters : List String) : String :=
  let methodLower := strLower method
  match specSegments path, parameters with
  | [], _ => methodLower ++ "_root"
  | resource :: _, firstParam :: _ =>
    methodLower ++ "_" ++ resource ++ "_by_" ++ firstParam
  | [resource], [] => methodLower ++ "_" ++ resource
  | resource :: s :: rest, [] =>
    methodLower ++ "_" ++ resource ++ "_" ++ (s :: rest).getLastD ""

theorem extractPathSegments_eq_specSegments (path : String) :
    extractPathSegments path = specSegments path := by
  unfold extractPathSegments specSegments
  refine List.filter_congr ?_
  intro s _
  rw [Bool.eq_iff_iff]
  simp

/-- C3: for every endpoint, the generated operationId equals the result
of the claim's algorithm over segments and parameters; in particular an
endpoint with path `/` yields `method_root`. -/
theorem c3_operation_id (e : Endpoint) :
    generateOperationId e = specOperationId e.method e.path e.parameters ∧
      generateOperationId (mkEndpoint "GET" "/" "" []) = "get_root" := by
  refine ⟨?_, rfl⟩
  unfold generateOperationId specOperationId
  rw [extractPathSegments_eq_specSegments]
  rcases hs : specSegments e.path with _ | ⟨r, rest⟩
  · simp
  · rcases hp : e.parameters with _ | ⟨q, qs⟩
    · rcases rest with _ | ⟨s2, rest2⟩
      · simp
      · simp [List.getLastD]
    · simp

/-! Claim C6: operation object assembly. -/

/-- C6: the assembled operation's summary, optional description field,
optional parameters field (with the fixed parameter shape) and the fixed
200-only responses, for an endpoint record built by the `Endpoint`
constructor. -/
theorem c6_operation_assembly (m p d : String) (ps : List String) :
    ((createOperation (mkEndpoint m p d ps)).summary =
        if d = "" then strUpper m ++ " " ++ p else d) ∧
      ((createOperation (mkEndpoint m p d ps)).description =
        if d = "" then none else some d) ∧
      ((createOperation (mkEndpoint m p d ps)).parameters =
        if ps = [] then none
        else some (ps.map (fun n =>
          { name := n
            in_ := "path"
            required := true
            schema := { type := "string" }
            description := "Identificador del " ++ n }))) ∧
      (createOperation (mkEndpoint m p d ps)).responses =
        [("200",
          { description := "Respuesta exitosa"
            content := [("application/json", { schema := { type := "object" } })] })] :=
  ⟨rfl, rfl, rfl, rfl⟩

/-! Claim C7: empty input behaviour. -/

/-- C7: if no line of the input is recognized, the extractor returns the
empty sequence, and normalizing the (empty) result still produces the
fixed openapi, info and servers sections with empty paths and tags. -/
theorem c7_no_endpoints (content title : String)
    (h : ∀ line ∈ (splitOnChar '\n' content.toList).map String.mk,
      endpointMatch (pyStrip line) = none) :
    parse content = [] ∧
      Normalizer.normalize (parse content) title =
        { openapi := "3.0.0"
          info := { title := title
                    version := "1.0.0"
                    description := DEFAULT_API_DESCRIPTION }
          servers := [{ url := DEFAULT_SERVER_URL
                        description := DEFAULT_SERVER_DESCRIPTION }]
          tags := []
          paths := [] } := by
  have hparse : parse content = [] := by
    unfold parse
    rw [List.filterMap_eq_nil_iff]
    intro a ha
    have hmem := snd_mem_of_mem_enum _ a ha
    have := h a.2 hmem
    unfold parseLineForEndpoint
    rw [this]
  refine ⟨hparse, ?_⟩
  rw [hparse]
  rfl

/-- Concrete instantiation of `c7_no_endpoints`: a two-line input with a
heading and prose only. -/
theorem c7_no_endpoints_witness :
    parse "Just prose here\n# A heading" = [] ∧
      Normalizer.normalize (parse "Just prose here\n# A heading") "T" =
        { openapi := "3.0.0"
          info := { title := "T"
                    version := "1.0.0"
                    description := DEFAULT_API_DESCRIPTION }
          servers := [{ url := DEFAULT_SERVER_URL
                        description := DEFAULT_SERVER_DESCRIPTION }]
          tags := []
          paths := [] } :=
  c7_no_endpoints "Just prose here\n# A heading" "T" (by decide)

/-! Elimination lemmas for parser results. -/

/-- A successful `parseLineForEndpoint` comes from a successful pattern
match on the stripped line, and builds the record from its two groups. -/
theorem parseLineForEndpoint_elim (line : String) (lines : List String) (i : Nat)
    (e : Endpoint) (h : parseLineForEndpoint line lines i = some e) :
    ∃ m p, endpointMatch (pyStrip line) = some (m, p) ∧
      e = mkEndpoint m p (extractDescription lines i) (extractPathParameters p) := by
  unfold parseLineForEndpoint at h
  cases hm : endpointMatch (pyStrip line) with
  | none => rw [hm] at h; cases h
  | some mp =>
    rw [hm] at h
    exact ⟨mp.1, mp.2, rfl, (Option.some.inj h).symm⟩

/-- Every endpoint in a parse result is built by `parseLineForEndpoint`
from some line of the input. -/
theorem mem_parse_elim (content : String) (e : Endpoint) (he : e ∈ parse content) :
    ∃ line i m p,
      endpointMatch (pyStrip line) = some (m, p) ∧
      e = mkEndpoint m p
        (extractDescription ((splitOnChar '\n' content.toList).map String.mk) i)
        (extractPathParameters p) := by
  unfold parse at he
  rw [List.mem_filterMap] at he
  obtain ⟨a, _, hsome⟩ := he
  obtain ⟨m, p, hmatch, heq⟩ := parseLineForEndpoint_elim a.2 _ a.1 e hsome
  exact ⟨a.2, a.1, m, p, hmatch, heq⟩

/-! Claim C8: the parameters field is derived from the path. -/

/-- C8: every endpoint record produced by the extractor carries exactly
the placeholder names that `PARAM_PATTERN` finds in its stored path, so
`parameters` is a deterministic function of `path` alone. -/
theorem c8_parameters_derivable (content : String) (e : Endpoint) (he : e ∈ parse content) :
    e.parameters = extractPathParameters e.path := by
  obtain ⟨line, i, m, p, _, rfl⟩ := mem_parse_elim content e he
  rfl

/-- Concrete instantiation of `c8_parameters_derivable` on the input
`GET /users/\x7bid\x7d`. -/
theorem c8_parameters_derivable_witness :
    (Endpoint.mk "GET" "/users/{id}" "" ["id"]).parameters =
      extractPathParameters (Endpoint.mk "GET" "/users/{id}" "" ["id"]).path :=
  c8_parameters_derivable "GET /users/{id}" (Endpoint.mk "GET" "/users/{id}" "" ["id"])
    (by decide)

/-! Claim C10: shape of every stored path. -/

/-- Any path produced by a successful `ENDPOINT_PATTERN` match starts
with `/`, has at least two characters and contains no whitespace. -/
theorem endpointMatchList_path_shape (cs : List Char) (m p : String)
    (h : endpointMatchList cs = some (m, p)) :
    p.toList.head? = some '/' ∧ 2 ≤ p.toList.length ∧
      ∀ c ∈ p.toList, isPySpace c = false := by
  unfold endpointMatchList at h
  cases hmm : matchMethod cs with
  | none => rw [hmm] at h; cases h
  | some mtok =>
    rw [hmm] at h
    dsimp only at h
    by_cases hws : (cs.drop mtok.toList.length).takeWhile isPySpace = []
    · rw [if_pos hws] at h; cases h
    · rw [if_neg hws] at h
      cases htail : (cs.drop mtok.toList.length).dropWhile isPySpace with
      | nil => rw [htail] at h; cases h
      | cons c tail =>
        rw [htail] at h
        dsimp only at h
        by_cases hc : c = '/'
        · rw [if_pos hc] at h
          by_cases htok : tail.takeWhile (fun x => !(isPySpace x)) = []
          · rw [if_pos htok] at h; cases h
          · rw [if_neg htok] at h
            have hp : p = String.mk ('/' :: tail.takeWhile (fun x => !(isPySpace x))) :=
              (congrArg Prod.snd (Option.some.inj h)).symm
            subst hp
            refine ⟨rfl, ?_, ?_⟩
            · have hpos : 0 < (tail.takeWhile (fun x => !(isPySpace x))).length :=
                List.length_pos.mpr htok
              simpa using hpos
            · intro x hx
              rcases List.mem_cons.mp hx with rfl | hx'
              · rfl
              · have := List.mem_takeWhile_imp hx'
                simpa using this
        · rw [if_neg hc] at h
          cases h

/-- C10: every endpoint record produced by the extractor has a path of
length at least 2 that begins with `/` and contains no whitespace; in
particular the input `GET /` produces no endpoint at all. -/
theorem c10_path_shape (content : String) (e : Endpoint) (he : e ∈ parse content) :
    e.path.toList.head? = some '/' ∧ 2 ≤ e.path.toList.length ∧
      (∀ c ∈ e.path.toList, isPySpace c = false) ∧ parse "GET /" = [] := by
  obtain ⟨line, i, m, p, hmatch, rfl⟩ := mem_parse_elim content e he
  obtain ⟨h1, h2, h3⟩ := endpointMatchList_path_shape _ m p hmatch
  exact ⟨h1, h2, h3, rfl⟩

/-- Concrete instantiation of `c10_path_shape` on the input
`GET /users`. -/
theorem c10_path_shape_witness :
    (Endpoint.mk "GET" "/users" "" []).path.toList.head? = some '/' ∧
      2 ≤ (Endpoint.mk "GET" "/users" "" []).path.toList.length ∧
      (∀ c ∈ (Endpoint.mk "GET" "/users" "" []).path.toList, isPySpace c = false) ∧
      parse "GET /" = [] :=
  c10_path_shape "GET /users" (Endpoint.mk "GET" "/users" "" []) (by decide)

/-! Claim C2: description extraction. -/

/-- The description scan exactly as the claim words it: per examined
line, first a declaration-pattern match stops the scan, then a leading
`#` stops it, then an empty line stops it only when a fragment was
already collected (and is merely skipped otherwise); every other
non-empty stripped line is appended as a fragment. -/
def specDescribe : List String → List String → List String
  | [], collected => collected
  | raw :: rest, collected =>
    let stripped := pyStrip raw
    if (endpointMatch stripped).isSome then collected
    else if stripped.toList.head? = some '#' then collected
    else if stripped = "" then
      if collected = [] then specDescribe rest collected else collected
    else specDescribe rest (collected ++ [stripped])

theorem extractDescriptionGo_eq_specDescribe :
    ∀ (window acc : List String), extractDescriptionGo window acc = specDescribe window acc := by
  intro window
  induction window with
  | nil => intro acc; rfl
  | cons raw rest ih =>
    intro acc
    unfold extractDescriptionGo specDescribe shouldStopDescription
    by_cases hm : (endpointMatch (pyStrip raw)).isSome = true
    · simp [hm]
    · by_cases hh : (pyStrip raw).data.head? = some '#'
      · simp [hm, hh]
      · by_cases hs : pyStrip raw = ""
        · by_cases ha : acc = []
          · simp [hm, hh, hs, ha, ih]
          · simp [hm, hh, hs, ha]
        · simp [hm, hh, hs, ih]

/-- C2: the description of every endpoint recognized at line `i` is the
claim's scan over exactly the window of the next three lines, joined
with single spaces and trimmed. -/
theorem c2_description (line : String) (lines : List String) (i : Nat) (e : Endpoint)
    (h : parseLineForEndpoint line lines i = some e) :
    e.description = pyStrip (joinSpace (specDescribe ((lines.drop (i + 1)).take 3) [])) := by
  obtain ⟨m, p, _, rfl⟩ := parseLineForEndpoint_elim line lines i e h
  show extractDescription lines i = _
  unfold extractDescription MAX_DESCRIPTION_LINES
  dsimp only
  rw [extractDescriptionGo_eq_specDescribe]

/-- Concrete instantiation of `c2_description`: two prose lines are
collected and a heading stops the scan. -/
theorem c2_description_witness :
    (Endpoint.mk "GET" "/a" "first words second words" []).description =
      pyStrip (joinSpace (specDescribe
        ((["GET /a", "first words", "second words", "# stop"].drop (0 + 1)).take 3) [])) :=
  c2_description "GET /a" ["GET /a", "first words", "second words", "# stop"] 0
    (Endpoint.mk "GET" "/a" "first words second words" []) (by decide)

/-! Claim C4: tag derivation and the tags section. -/

/-- The tag rule exactly as the claim words it: fewer than two
slash-segments give `default`; otherwise the segment after the leading
empty segment, truncated at its first brace, with `default` for an
empty truncation. -/
def specTagOf (path : String) : String :=
  let parts := (splitOnChar '/' path.toList).map String.mk
  if parts.length < 2 then "default"
  else
    let seg := parts.getD 1 ""
    let truncated := seg.toList.takeWhile (fun c => !(c == '{'))
    if truncated = [] then "default" else String.mk truncated

theorem splitOnChar_ne_nil (sep : Char) (cs : List Char) : splitOnChar sep cs ≠ [] := by
  induction cs with
  | nil => simp [splitOnChar]
  | cons c rest ih =>
    unfold splitOnChar
    by_cases h : c = sep
    · simp [h]
    · cases hs : splitOnChar sep rest <;> simp [h, hs]

theorem headD_splitOnChar (sep : Char) (cs : List Char) :
    (splitOnChar sep cs).headD [] = cs.takeWhile (fun c => !(c == sep)) := by
  induction cs with
  | nil => rfl
  | cons c rest ih =>
    unfold splitOnChar
    by_cases h : c = sep
    · subst h; simp [List.takeWhile]
    · cases hs : splitOnChar sep rest with
      | nil => exact absurd hs (splitOnChar_ne_nil sep rest)
      | cons hh tt =>
        rw [hs] at ih
        simp only [List.headD] at ih
        have hb : (!(c == sep)) = true := by simp [h]
        simp [h, hs, List.takeWhile, ih, hb]

theorem extractTagFromPath_eq_specTagOf (p : String) :
    extractTagFromPath p = specTagOf p := by
  unfold extractTagFromPath specTagOf
  dsimp only
  rw [headD_splitOnChar]
  by_cases hlen : (((splitOnChar '/' p.toList).map String.mk).length < 2)
  · rw [if_pos hlen, if_pos hlen]
  · rw [if_neg hlen, if_neg hlen]
    by_cases ht :
        ((((splitOnChar '/' p.toList).map String.mk).getD 1 "").toList.takeWhile
          (fun c => !(c == '{'))) = []
    · rw [if_pos ht]
      rw [ht]
      rfl
    · rw [if_neg ht]
      have : String.mk ((((splitOnChar '/' p.toList).map String.mk).getD 1 "").toList.takeWhile
          (fun c => !(c == '{'))) ≠ "" := by
        intro hc
        exact ht (congrArg String.data hc)
      rw [if_neg this]

theorem mem_newFirsts : ∀ (l seen : List String) (x : String),
    x ∈ newFirsts seen l ↔ x ∈ l ∧ x ∉ seen := by
  intro l
  induction l with
  | nil => intro seen x; simp [newFirsts]
  | cons y ys ih =>
    intro seen x
    unfold newFirsts
    by_cases hy : y ∈ seen
    · rw [if_pos hy, ih]
      constructor
      · rintro ⟨hx, hns⟩
        exact ⟨List.mem_cons_of_mem y hx, hns⟩
      · rintro ⟨hx, hns⟩
        rcases List.mem_cons.mp hx with rfl | hx
        · exact absurd hy hns
        · exact ⟨hx, hns⟩
    · rw [if_neg hy]
      constructor
      · intro hx
        rcases List.mem_cons.mp hx with rfl | hx
        · exact ⟨List.mem_cons_self _ _, hy⟩
        · obtain ⟨h1, h2⟩ := (ih (y :: seen) x).mp hx
          exact ⟨List.mem_cons_of_mem _ h1,
            fun hc => h2 (List.mem_cons_of_mem _ hc)⟩
      · rintro ⟨hx, hns⟩
        rcases List.mem_cons.mp hx with rfl | hx
        · exact List.mem_cons_self _ _
        · by_cases hxy : x = y
          · subst hxy; exact List.mem_cons_self _ _
          · refine List.mem_cons_of_mem _ ((ih (y :: seen) x).mpr ⟨hx, ?_⟩)
            intro hc
            rcases List.mem_cons.mp hc with h | h
            · exact hxy h
            · exact hns h

theorem nodup_newFirsts : ∀ (l seen : List String), (newFirsts seen l).Nodup := by
  intro l
  induction l with
  | nil => intro seen; simp [newFirsts]
  | cons y ys ih =>
    intro seen
    unfold newFirsts
    by_cases hy : y ∈ seen
    · rw [if_pos hy]; exact ih seen
    · rw [if_neg hy]
      refine List.nodup_cons.mpr ⟨?_, ih (y :: seen)⟩
      intro hc
      exact ((mem_newFirsts ys (y :: seen) y).mp hc).2 (List.mem_cons_self _ _)

theorem sortStrings_perm (l : List String) : (sortStrings l).Perm l :=
  List.perm_insertionSort (fun a b => a ≤ b) l

theorem sortStrings_sorted (l : List String) :
    List.Sorted (fun a b : String => a ≤ b) (sortStrings l) :=
  List.sorted_insertionSort (fun a b => a ≤ b) l

/-- The names in the document's tags section are the sorted extracted
tags. -/
theorem tags_map_name (endpoints : List Endpoint) (title : String) :
    ((Normalizer.normalize endpoints title).tags).map Tag.name
      = sortStrings (extractTags endpoints) := by
  show (buildTagsSection (extractTags endpoints)).map Tag.name = _
  unfold buildTagsSection
  rw [List.map_map]
  rw [show (Tag.name ∘ fun t => ({ name := t } : Tag)) = id from rfl, List.map_id]

/-- C4: the tag of every endpoint follows the claim's per-path rule, and
the document's tags section consists of exactly the distinct tags of the
endpoints, strictly sorted, each as an object with only a name. -/
theorem c4_tags (endpoints : List Endpoint) (title p : String) :
    List.Pairwise (fun a b : String => a < b)
        (((Normalizer.normalize endpoints title).tags).map Tag.name) ∧
      (∀ s, s ∈ ((Normalizer.normalize endpoints title).tags).map Tag.name ↔
        ∃ e ∈ endpoints, extractTagFromPath e.path = s) ∧
      extractTagFromPath p = specTagOf p := by
  have htags := tags_map_name endpoints title
  refine ⟨?_, ?_, extractTagFromPath_eq_specTagOf p⟩
  · rw [htags]
    have hnodup : (sortStrings (extractTags endpoints)).Nodup :=
      ((sortStrings_perm _).nodup_iff).mpr (nodup_newFirsts _ [])
    exact ((sortStrings_sorted (extractTags endpoints)).and hnodup).imp
      (fun h => lt_of_le_of_ne h.1 h.2)
  · intro s
    rw [htags, (sortStrings_perm _).mem_iff]
    unfold extractTags distinctFirst
    rw [mem_newFirsts]
    simp [List.mem_map]

/-! Claim C5: path grouping. -/

theorem dictGet_dictInsert {α : Type} (q k : String) (v : α) (d : List (String × α)) :
    dictGet q (dictInsert k v d) = if k = q then some v else dictGet q d := by
  induction d with
  | nil => by_cases h : k = q <;> simp [dictInsert, dictGet, h]
  | cons hd tl ih =>
    obtain ⟨k0, v0⟩ := hd
    unfold dictInsert
    by_cases h0 : k0 = k
    · subst h0
      rw [if_pos rfl]
      by_cases hq : k0 = q <;> simp [dictGet, hq]
    · rw [if_neg h0]
      by_cases hq : k0 = q
      · have hkq : ¬k = q := fun hc => h0 (by rw [hq, hc])
        simp [dictGet, hq, hkq]
      · simp [dictGet, hq, ih]

theorem keys_dictInsert {α : Type} (k : String) (v : α) (d : List (String × α)) :
    (dictInsert k v d).map Prod.fst =
      if k ∈ d.map Prod.fst then d.map Prod.fst else d.map Prod.fst ++ [k] := by
  induction d with
  | nil => simp [dictInsert]
  | cons hd tl ih =>
    obtain ⟨k0, v0⟩ := hd
    unfold dictInsert
    by_cases h0 : k0 = k
    · subst h0
      rw [if_pos rfl]
      simp
    · rw [if_neg h0]
      by_cases hmem : k ∈ tl.map Prod.fst
      · simp only [List.map_cons, List.mem_cons]
        rw [if_pos (Or.inr hmem)]
        rw [ih.trans (if_pos hmem)]
      · simp only [List.map_cons, List.mem_cons]
        rw [if_neg (by
          rintro (h | h)
          · exact h0 h.symm
          · exact hmem h)]
        rw [ih.trans (if_neg hmem)]
        rfl

theorem newFirsts_congr : ∀ (l seen₁ seen₂ : List String),
    (∀ x, x ∈ seen₁ ↔ x ∈ seen₂) → newFirsts seen₁ l = newFirsts seen₂ l := by
  intro l
  induction l with
  | nil => intro _ _ _; rfl
  | cons y ys ih =>
    intro seen₁ seen₂ hss
    unfold newFirsts
    by_cases hy : y ∈ seen₁
    · rw [if_pos hy, if_pos ((hss y).mp hy), ih seen₁ seen₂ hss]
    · rw [if_neg hy, if_neg (fun hc => hy ((hss y).mpr hc))]
      rw [ih (y :: seen₁) (y :: seen₂) (fun x => by
        simp only [List.mem_cons]
        exact or_congr Iff.rfl (hss x))]

theorem newFirsts_cons (seen : List String) (x : String) (xs : List String) :
    newFirsts seen (x :: xs) =
      if x ∈ seen then newFirsts seen xs else x :: newFirsts (x :: seen) xs := rfl

theorem keys_foldl_buildPathsStep :
    ∀ (es : List Endpoint) (acc : List (String × List (String × Operation))),
      (es.foldl buildPathsStep acc).map Prod.fst =
        acc.map Prod.fst ++ newFirsts (acc.map Prod.fst) (es.map Endpoint.path) := by
  intro es
  induction es with
  | nil => intro acc; simp [newFirsts]
  | cons e es ih =>
    intro acc
    rw [List.foldl_cons, ih, List.map_cons, newFirsts_cons]
    have hkeys : (buildPathsStep acc e).map Prod.fst =
        if e.path ∈ acc.map Prod.fst then acc.map Prod.fst
        else acc.map Prod.fst ++ [e.path] := by
      unfold buildPathsStep
      exact keys_dictInsert e.path _ acc
    by_cases hmem : e.path ∈ acc.map Prod.fst
    · rw [hkeys.trans (if_pos hmem), if_pos hmem]
    · rw [hkeys.trans (if_neg hmem), if_neg hmem]
      rw [newFirsts_congr (es.map Endpoint.path)
        (acc.map Prod.fst ++ [e.path]) (e.path :: acc.map Prod.fst)
        (fun x => by simp [List.mem_append, List.mem_cons, or_comm])]
      simp

theorem lookup_buildPathsStep (acc : List (String × List (String × Operation)))
    (e : Endpoint) (p m : String) :
    (dictGet p (buildPathsStep acc e)).bind (dictGet m) =
      if e.path = p ∧ strLower e.method = m then some (createOperation e)
      else (dictGet p acc).bind (dictGet m) := by
  unfold buildPathsStep
  rw [dictGet_dictInsert]
  by_cases hp : e.path = p
  · rw [if_pos hp, Option.some_bind, dictGet_dictInsert]
    by_cases hm : strLower e.method = m
    · rw [if_pos hm, if_pos ⟨hp, hm⟩]
    · rw [if_neg hm, if_neg (fun hc => hm hc.2), ← hp]
      cases hacc : dictGet e.path acc with
      | none => simp [dictGet]
      | some d => simp
  · rw [if_neg hp, if_neg (fun hc => hp hc.1)]

theorem lookup_foldl_buildPathsStep :
    ∀ (es : List Endpoint) (acc : List (String × List (String × Operation))) (p m : String),
      (dictGet p (es.foldl buildPathsStep acc)).bind (dictGet m) =
        (match (es.filter (fun e => e.path == p && strLower e.method == m)).getLast? with
          | some e => some (createOperation e)
          | none => (dictGet p acc).bind (dictGet m)) := by
  intro es
  induction es with
  | nil => intro acc p m; rfl
  | cons e es ih =>
    intro acc p m
    rw [List.foldl_cons, ih, List.filter_cons]
    by_cases hP : (e.path == p && strLower e.method == m) = true
    · rw [if_pos hP]
      have hPP : e.path = p ∧ strLower e.method = m := by
        simpa using hP
      cases h2 : (es.filter (fun e => e.path == p && strLower e.method == m)).getLast? with
      | some e' =>
        have hne : es.filter (fun e => e.path == p && strLower e.method == m) ≠ [] := by
          intro hc
          rw [hc] at h2
          cases h2
        cases hfl : es.filter (fun e => e.path == p && strLower e.method == m) with
        | nil => exact absurd hfl hne
        | cons b l =>
          rw [hfl] at h2
          rw [List.getLast?_cons_cons, h2]
      | none =>
        have hnil : es.filter (fun e => e.path == p && strLower e.method == m) = [] :=
          List.getLast?_eq_none_iff.mp h2
        rw [hnil]
        show (dictGet p (buildPathsStep acc e)).bind (dictGet m) = _
        rw [lookup_buildPathsStep, if_pos hPP]
        rfl
    · rw [if_neg hP]
      have hPP : ¬(e.path = p ∧ strLower e.method = m) := by
        intro hc
        exact hP (by simp [hc.1, hc.2])
      cases h2 : (es.filter (fun e => e.path == p && strLower e.method == m)).getLast? with
      | some e' => rfl
      | none => rw [lookup_buildPathsStep, if_neg hPP]

/-- C5: the paths mapping lists the distinct paths in first-occurrence
order, and the operation stored under a path and lowercased method is
the one of the last endpoint of the input sequence with that path and
method (last-write-wins). -/
theorem c5_path_grouping (endpoints : List Endpoint) (title p m : String) :
    ((Normalizer.normalize endpoints title).paths).map Prod.fst =
        distinctFirst (endpoints.map Endpoint.path) ∧
      (dictGet p ((Normalizer.normalize endpoints title).paths)).bind (dictGet m) =
        ((endpoints.filter (fun e => e.path == p && strLower e.method == m)).getLast?).map
          createOperation := by
  constructor
  · show (endpoints.foldl buildPathsStep []).map Prod.fst = _
    rw [keys_foldl_buildPathsStep endpoints []]
    rfl
  · show (dictGet p (endpoints.foldl buildPathsStep [])).bind (dictGet m) = _
    rw [lookup_foldl_buildPathsStep endpoints [] p m]
    cases h : (endpoints.filter (fun e => e.path == p && strLower e.method == m)).getLast? with
    | some e => rfl
    | none => rfl

/-! Claim C9: every operation's single tag names a top-level tag. -/

theorem mem_dictInsert {α : Type} (k : String) (v : α) (d : List (String × α))
    (q : String) (x : α) (h : (q, x) ∈ dictInsert k v d) :
    (q, x) ∈ d ∨ (q = k ∧ x = v) := by
  induction d with
  | nil =>
    simp only [dictInsert, List.mem_singleton] at h
    exact Or.inr ⟨(Prod.mk.injEq _ _ _ _ ▸ h).1, (Prod.mk.injEq _ _ _ _ ▸ h).2⟩
  | cons hd tl ih =>
    obtain ⟨k0, v0⟩ := hd
    unfold dictInsert at h
    by_cases h0 : k0 = k
    · rw [if_pos h0] at h
      rcases List.mem_cons.mp h with heq | hmem
      · have h1 := (Prod.mk.injEq _ _ _ _ ▸ heq).1
        have h2 := (Prod.mk.injEq _ _ _ _ ▸ heq).2
        exact Or.inr ⟨h1.trans h0, h2⟩
      · exact Or.inl (List.mem_cons_of_mem _ hmem)
    · rw [if_neg h0] at h
      rcases List.mem_cons.mp h with heq | hmem
      · exact Or.inl (heq ▸ List.mem_cons_self _ _)
      · rcases ih hmem with h1 | h2
        · exact Or.inl (List.mem_cons_of_mem _ h1)
        · exact Or.inr h2

theorem mem_of_dictGet {α : Type} (q : String) (d : List (String × α)) (x : α)
    (h : dictGet q d = some x) : (q, x) ∈ d := by
  induction d with
  | nil => cases h
  | cons hd tl ih =>
    obtain ⟨k0, v0⟩ := hd
    unfold dictGet at h
    by_cases h0 : k0 = q
    · rw [if_pos h0] at h
      subst h0
      rw [Option.some.inj h]
      exact List.mem_cons_self _ _
    · rw [if_neg h0] at h
      exact List.mem_cons_of_mem _ (ih h)

/-- Every operation value stored by the paths-building fold satisfies a
property that holds of the accumulator's operations and of
`createOperation` on the remaining endpoints. -/
theorem op_mem_foldl_buildPathsStep (Q : Operation → Prop) :
    ∀ (es : List Endpoint) (acc : List (String × List (String × Operation))),
      (∀ p inner m op, (p, inner) ∈ acc → (m, op) ∈ inner → Q op) →
      (∀ e ∈ es, Q (createOperation e)) →
      ∀ p inner m op, (p, inner) ∈ es.foldl buildPathsStep acc → (m, op) ∈ inner → Q op := by
  intro es
  induction es with
  | nil => intro acc hacc _ p inner m op hmem hop; exact hacc p inner m op hmem hop
  | cons e es ih =>
    intro acc hacc hes p inner m op hmem hop
    rw [List.foldl_cons] at hmem
    refine ih (buildPathsStep acc e) ?_
      (fun e' he' => hes e' (List.mem_cons_of_mem _ he')) p inner m op hmem hop
    intro p' inner' m' op' hmem' hop'
    unfold buildPathsStep at hmem'
    rcases mem_dictInsert _ _ _ _ _ hmem' with hold | ⟨_, hinner⟩
    · exact hacc p' inner' m' op' hold hop'
    · subst hinner
      rcases mem_dictInsert _ _ _ _ _ hop' with hold2 | ⟨_, hopv⟩
      · cases hacc2 : dictGet e.path acc with
        | none => rw [hacc2] at hold2; cases hold2
        | some d =>
          rw [hacc2] at hold2
          exact hacc e.path d m' op' (mem_of_dictGet _ _ _ hacc2) hold2
      · subst hopv
        exact hes e (List.mem_cons_self _ _)

/-- C9: in every produced document, every operation stored in the paths
mapping has a single-element tags list whose element is the name of an
entry of the document's top-level tags section. -/
theorem c9_operation_tags (endpoints : List Endpoint) (title p m : String)
    (inner : List (String × Operation)) (op : Operation)
    (h1 : (p, inner) ∈ (Normalizer.normalize endpoints title).paths)
    (h2 : (m, op) ∈ inner) :
    ∃ t, op.tags = [t] ∧
      t ∈ ((Normalizer.normalize endpoints title).tags).map Tag.name := by
  have hQ : ∃ e ∈ endpoints, op = createOperation e := by
    refine op_mem_foldl_buildPathsStep (fun o => ∃ e ∈ endpoints, o = createOperation e)
      endpoints [] ?_ ?_ p inner m op h1 h2
    · intro p' inner' m' op' hmem _
      cases hmem
    · intro e he
      exact ⟨e, he, rfl⟩
  obtain ⟨e, he, rfl⟩ := hQ
  refine ⟨extractTagFromPath e.path, rfl, ?_⟩
  rw [tags_map_name, (sortStrings_perm _).mem_iff]
  unfold extractTags distinctFirst
  rw [mem_newFirsts]
  exact ⟨List.mem_map.mpr ⟨e, he, rfl⟩, by simp⟩

/-- Concrete instantiation of `c9_operation_tags` on a one-endpoint
document. -/
theorem c9_operation_tags_witness :
    ∃ t, (createOperation (mkEndpoint "GET" "/users" "" [])).tags = [t] ∧
      t ∈ ((Normalizer.normalize [mkEndpoint "GET" "/users" "" []] "T").tags).map Tag.name :=
  c9_operation_tags [mkEndpoint "GET" "/users" "" []] "T" "/users" "get"
    [("get", createOperation (mkEndpoint "GET" "/users" "" []))]
    (createOperation (mkEndpoint "GET" "/users" "" [])) (by decide) (by decide)

/-! Claim C1: the recognition rule.  First, lemmas about the pieces of
`endpointMatchList`. -/

theorem startsWithCI_iff : ∀ (ts cs : List Char),
    startsWithCI cs ts = true ↔
      ((cs.take ts.length).map Char.toUpper = ts ∧ ts.length ≤ cs.length) := by
  intro ts
  induction ts with
  | nil => intro cs; simp [startsWithCI]
  | cons t ts ih =>
    intro cs
    cases cs with
    | nil => simp [startsWithCI]
    | cons c cs =>
      simp only [startsWithCI, List.take, List.map_cons, List.length_cons,
        Bool.and_eq_true, beq_iff_eq, ih cs, List.cons.injEq, Nat.succ_le_succ_iff]
      constructor
      · rintro ⟨h1, h2, h3⟩
        exact ⟨⟨h1, h2⟩, h3⟩
      · rintro ⟨⟨h1, h2⟩, h3⟩
        exact ⟨h1, h2, h3⟩

/-- No HTTP method token is a proper initial segment of another. -/
theorem methods_take_eq : ∀ m₁ ∈ HTTP_METHODS, ∀ m₂ ∈ HTTP_METHODS,
    m₁.toList = m₂.toList.take m₁.toList.length → m₁ = m₂ := by
  decide

/-- Uppercasing is the identity on the (already uppercase) method
tokens. -/
theorem strUpper_mem_methods : ∀ m ∈ HTTP_METHODS, strUpper m = m := by
  decide

theorem startsWithCI_unique (cs : List Char) (m₁ m₂ : String)
    (h₁ : m₁ ∈ HTTP_METHODS) (h₂ : m₂ ∈ HTTP_METHODS)
    (s₁ : startsWithCI cs m₁.toList = true) (s₂ : startsWithCI cs m₂.toList = true) :
    m₁ = m₂ := by
  obtain ⟨e₁, l₁⟩ := (startsWithCI_iff m₁.toList cs).mp s₁
  obtain ⟨e₂, l₂⟩ := (startsWithCI_iff m₂.toList cs).mp s₂
  rcases Nat.le_total m₁.toList.length m₂.toList.length with hle | hle
  · refine methods_take_eq m₁ h₁ m₂ h₂ ?_
    rw [← e₂, ← List.map_take, List.take_take, Nat.min_eq_left hle, e₁]
  · refine (methods_take_eq m₂ h₂ m₁ h₁ ?_).symm
    rw [← e₁, ← List.map_take, List.take_take, Nat.min_eq_left hle, e₂]

theorem findSome?_method (l : List String) (cs : List Char) (m : String)
    (hm : m ∈ l) (hs : startsWithCI cs m.toList = true)
    (hu : ∀ x ∈ l, startsWithCI cs x.toList = true → x = m) :
    l.findSome? (fun x => if startsWithCI cs x.toList then some x else none) = some m := by
  induction l with
  | nil => cases hm
  | cons y ys ih =>
    rw [List.findSome?_cons]
    by_cases hy : startsWithCI cs y.toList = true
    · rw [if_pos hy]
      rw [hu y (List.mem_cons_self _ _) hy]
    · rw [if_neg hy]
      rcases List.mem_cons.mp hm with rfl | hm'
      · exact absurd hs hy
      · exact ih hm' (fun x hx hsx => hu x (List.mem_cons_of_mem _ hx) hsx)

theorem matchMethod_elim (cs : List Char) (m : String) (h : matchMethod cs = some m) :
    m ∈ HTTP_METHODS ∧ startsWithCI cs m.toList = true := by
  unfold matchMethod at h
  obtain ⟨a, ha, hfa⟩ := List.exists_of_findSome?_eq_some h
  by_cases hs : startsWithCI cs a.toList = true
  · rw [if_pos hs] at hfa
    cases hfa
    exact ⟨ha, hs⟩
  · rw [if_neg hs] at hfa
    cases hfa

theorem matchMethod_intro (cs : List Char) (m : String) (hm : m ∈ HTTP_METHODS)
    (hs : startsWithCI cs m.toList = true) : matchMethod cs = some m :=
  findSome?_method HTTP_METHODS cs m hm hs
    (fun x hx hsx => startsWithCI_unique cs x m hx hm hsx hs)

theorem head?_dropWhile_not (p : Char → Bool) :
    ∀ (l : List Char) (c : Char), (l.dropWhile p).head? = some c → p c = false := by
  intro l
  induction l with
  | nil => intro c h; cases h
  | cons x xs ih =>
    intro c h
    by_cases hx : p x = true
    · rw [List.dropWhile_cons, if_pos hx] at h
      exact ih c h
    · rw [List.dropWhile_cons, if_neg hx] at h
      rw [← Option.some.inj h]
      exact Bool.of_not_eq_true hx

theorem takeWhile_append_all_not (p : Char → Bool) :
    ∀ (xs ys : List Char), (∀ c ∈ xs, p c = true) →
      (∀ c, ys.head? = some c → p c = false) →
      (xs ++ ys).takeWhile p = xs ∧ (xs ++ ys).dropWhile p = ys := by
  intro xs
  induction xs with
  | nil =>
    intro ys _ hh
    cases ys with
    | nil => exact ⟨rfl, rfl⟩
    | cons y ts =>
      have hy := hh y rfl
      constructor
      · rw [List.nil_append, List.takeWhile_cons, if_neg (by simp [hy])]
      · rw [List.nil_append, List.dropWhile_cons, if_neg (by simp [hy])]
  | cons x xs ih =>
    intro ys hall hh
    have hx : p x = true := hall x (List.mem_cons_self _ _)
    obtain ⟨ht, hd⟩ := ih ys (fun c hc => hall c (List.mem_cons_of_mem _ hc)) hh
    constructor
    · rw [List.cons_append, List.takeWhile_cons, if_pos hx, ht]
    · rw [List.cons_append, List.dropWhile_cons, if_pos hx, hd]

/-- The declaration shape claimed for a stripped line, with the claimed
method and path: a case-insensitive HTTP method token, at least one
whitespace character, then a token that starts with `/`, has at least
`minLen` characters, contains no whitespace, and is maximal (the rest of
the line, which is otherwise unconstrained and ignored, starts with
whitespace if nonempty); the method is the matched token uppercased and
the path is that maximal token.  The claim as written corresponds to
`minLen = 1`; the code requires `minLen = 2`. -/
def DeclShape (cs : List Char) (method path : String) (minLen : Nat) : Prop :=
  ∃ mtok ws ptok rest : List Char,
    cs = mtok ++ ws ++ ptok ++ rest ∧
    String.mk (mtok.map Char.toUpper) ∈ HTTP_METHODS ∧
    ws ≠ [] ∧ (∀ c ∈ ws, isPySpace c = true) ∧
    ptok.head? = some '/' ∧ minLen ≤ ptok.length ∧
    (∀ c ∈ ptok, isPySpace c = false) ∧
    (∀ c, rest.head? = some c → isPySpace c = true) ∧
    method = String.mk (mtok.map Char.toUpper) ∧ path = String.mk ptok

theorem endpointMatchList_elim (cs : List Char) (m p : String)
    (h : endpointMatchList cs = some (m, p)) : DeclShape cs m p 2 := by
  unfold endpointMatchList at h
  cases hmm : matchMethod cs with
  | none => rw [hmm] at h; cases h
  | some mtok =>
    rw [hmm] at h
    dsimp only at h
    obtain ⟨hmem, hsw⟩ := matchMethod_elim cs mtok hmm
    obtain ⟨htake, hlenle⟩ := (startsWithCI_iff mtok.toList cs).mp hsw
    by_cases hws : (cs.drop mtok.toList.length).takeWhile isPySpace = []
    · rw [if_pos hws] at h; cases h
    · rw [if_neg hws] at h
      cases htail : (cs.drop mtok.toList.length).dropWhile isPySpace with
      | nil => rw [htail] at h; cases h
      | cons c tail =>
        rw [htail] at h
        dsimp only at h
        by_cases hc : c = '/'
        · subst hc
          rw [if_pos rfl] at h
          by_cases htok : tail.takeWhile (fun x => !(isPySpace x)) = []
          · rw [if_pos htok] at h; cases h
          · rw [if_neg htok] at h
            obtain ⟨hm, hp⟩ : mtok = m ∧
                String.mk ('/' :: tail.takeWhile (fun x => !(isPySpace x))) = p := by
              have h2 := Option.some.inj h
              exact ⟨congrArg Prod.fst h2, congrArg Prod.snd h2⟩
            refine ⟨cs.take mtok.toList.length,
                    (cs.drop mtok.toList.length).takeWhile isPySpace,
                    '/' :: tail.takeWhile (fun x => !(isPySpace x)),
                    tail.dropWhile (fun x => !(isPySpace x)),
                    ?_, ?_, hws, ?_, rfl, ?_, ?_, ?_, ?_, hp.symm⟩
            · simp only [List.append_assoc, List.cons_append]
              rw [List.takeWhile_append_dropWhile, ← htail,
                List.takeWhile_append_dropWhile, List.take_append_drop]
            · rw [htake]
              exact hmem
            · intro x hx
              exact List.mem_takeWhile_imp hx
            · have hpos : 0 < (tail.takeWhile (fun x => !(isPySpace x))).length :=
                List.length_pos.mpr htok
              simp only [List.length_cons]
              omega
            · intro x hx
              rcases List.mem_cons.mp hx with rfl | hx'
              · rfl
              · have := List.mem_takeWhile_imp hx'
                simpa using this
            · intro x hx
              have h1 := head?_dropWhile_not (fun x => !(isPySpace x)) tail x hx
              simpa using h1
            · rw [← hm, htake]
              rfl
        · rw [if_neg hc] at h
          cases h

theorem endpointMatchList_intro (cs : List Char) (m p : String) (h : DeclShape cs m p 2) :
    endpointMatchList cs = some (m, p) := by
  obtain ⟨mtok, ws, ptok, rest, hcs, hmem, hws, hwsall, hhead, hlen, hnows, hresthead, hm, hp⟩ := h
  obtain ⟨ptail, rfl⟩ : ∃ ptail, ptok = '/' :: ptail := by
    cases ptok with
    | nil => cases hhead
    | cons c t =>
      have hcc : c = '/' := Option.some.inj hhead
      subst hcc
      exact ⟨t, rfl⟩
  subst hcs hm hp
  have hcanlist : (String.mk (mtok.map Char.toUpper)).toList = mtok.map Char.toUpper := rfl
  have hsw : startsWithCI (mtok ++ ws ++ ('/' :: ptail) ++ rest)
      (String.mk (mtok.map Char.toUpper)).toList = true := by
    rw [hcanlist]
    refine (startsWithCI_iff _ _).mpr ⟨?_, ?_⟩
    · rw [List.length_map]
      simp only [List.append_assoc]
      rw [List.take_left]
    · rw [List.length_map]
      simp only [List.length_append]
      omega
  have hmatch := matchMethod_intro _ _ hmem hsw
  unfold endpointMatchList
  rw [hmatch]
  dsimp only
  have hdrop : (mtok ++ ws ++ ('/' :: ptail) ++ rest).drop
      (String.mk (mtok.map Char.toUpper)).toList.length = ws ++ ('/' :: (ptail ++ rest)) := by
    rw [hcanlist, List.length_map]
    simp only [List.append_assoc, List.cons_append]
    exact List.drop_left mtok _
  rw [hdrop]
  obtain ⟨hta, hda⟩ := takeWhile_append_all_not isPySpace ws ('/' :: (ptail ++ rest)) hwsall
    (fun c hc => by
      rw [← Option.some.inj hc]
      rfl)
  rw [hta, hda, if_neg hws]
  dsimp only
  rw [if_pos rfl]
  obtain ⟨htb, _⟩ := takeWhile_append_all_not (fun x => !(isPySpace x)) ptail rest
    (fun c hc => by
      have := hnows c (List.mem_cons_of_mem _ hc)
      simp [this])
    (fun c hc => by
      have := hresthead c hc
      simp [this])
  rw [htb]
  rw [if_neg (show ptail ≠ [] from fun hc => by
    subst hc
    simp at hlen)]

/-- C1 (amended): the extractor recognizes a declaration on a line, with
recorded method and path, exactly when the stripped line has the claimed
shape — where the path token must contain at least one non-whitespace
character after the `/` (the amendment to the claim, whose literal
wording also admits a bare `/`); and the recognized line's own trailing
content is never used as the description, which is computed from the
following lines only. -/
theorem c1_amended_recognition (line : String) (allLines : List String) (i : Nat) :
    (∀ method path,
      ((parseLineForEndpoint line allLines i).map (fun e => (e.method, e.path)) =
          some (method, path)) ↔
        DeclShape (pyStrip line).toList method path 2) ∧
    (∀ e, parseLineForEndpoint line allLines i = some e →
      e.description = extractDescription allLines i) := by
  constructor
  · intro method path
    constructor
    · intro h
      cases hpl : parseLineForEndpoint line allLines i with
      | none => rw [hpl] at h; cases h
      | some e =>
        rw [hpl] at h
        obtain ⟨mm, pp, hmatch, he⟩ := parseLineForEndpoint_elim line allLines i e hpl
        have hd := endpointMatchList_elim (pyStrip line).toList mm pp hmatch
        have hme : e.method = method := congrArg Prod.fst (Option.some.inj h)
        have hpe : e.path = path := congrArg Prod.snd (Option.some.inj h)
        have hmm_mem : mm ∈ HTTP_METHODS := by
          obtain ⟨mtok, ws, ptok, rest, _, hmem', _, _, _, _, _, _, hmeq, _⟩ := hd
          rw [hmeq]
          exact hmem'
        subst he
        simp only [mkEndpoint] at hme hpe
        rw [strUpper_mem_methods mm hmm_mem] at hme
        subst hme
        subst hpe
        exact hd
    · intro hd
      have hmain : endpointMatch (pyStrip line) = some (method, path) :=
        endpointMatchList_intro (pyStrip line).toList method path hd
      have hmem : method ∈ HTTP_METHODS := by
        obtain ⟨mtok, ws, ptok, rest, _, hmem', _, _, _, _, _, _, hmeq, _⟩ := hd
        rw [hmeq]
        exact hmem'
      have hpl : parseLineForEndpoint line allLines i =
          some (mkEndpoint method path (extractDescription allLines i)
            (extractPathParameters path)) := by
        unfold parseLineForEndpoint
        rw [hmain]
      rw [hpl]
      simp [mkEndpoint, strUpper_mem_methods method hmem]
  · intro e he
    obtain ⟨mm, pp, _, rfl⟩ := parseLineForEndpoint_elim line allLines i e he
    rfl

/-- Concrete instantiation of `c1_amended_recognition`: the line
`get /users 42` is recognized with method `GET` and path `/users`, so the
stripped line has the claimed shape. -/
theorem c1_amended_recognition_witness :
    DeclShape (pyStrip "get /users 42").toList "GET" "/users" 2 :=
  ((c1_amended_recognition "get /users 42" [] 0).1 "GET" "/users").mp (by decide)

/-- C1 as literally stated fails on the input `GET /`: the stripped line
does begin with a method token, whitespace, and a token starting with
`/` containing no whitespace (the claimed shape with a bare `/` as the
maximal token), yet the extractor recognizes nothing on that line. -/
theorem c1_counterexample :
    DeclShape (pyStrip "GET /").toList "GET" "/" 1 ∧
      parseLineForEndpoint "GET /" ["GET /"] 0 = none ∧
      parse "GET /" = [] := by
  refine ⟨⟨['G', 'E', 'T'], [' '], ['/'], [],
    by decide, by decide, by decide, by decide, by decide, by decide, by decide,
    ?_, by decide, by decide⟩, by decide, by decide⟩
  intro c hc
  cases hc
